import Mathlib

/-!
Verification of the text-segmentation pipeline of `medical_rag/pdf_utils.py`
(class `MedicalPaperPreprocessor`): line filtering, bibliography truncation,
text normalization (`clean_text`) and token-window chunking (`chunk_text`).

Strings are modelled as `List Char` (with `String` wrappers matching the
source signatures).  Python regular-expression operations are embedded as
executable recursive functions; whitespace is modelled by the six ASCII
whitespace characters recognised by the Python `\s` class and `str.strip`.
-/

/-- Model of the Python regex class `\s` and of `str.strip` whitespace
(ASCII fragment: space, tab, newline, carriage return, vertical tab,
form feed). -/
def isPySpace (c : Char) : Bool :=
  c == ' ' || c == '\t' || c == '\n' || c == '\r' || c == '\x0b' || c == '\x0c'

/-- Characters matched by the regex class `[ \t]` in `clean_text`. -/
def isSpaceTab (c : Char) : Bool :=
  c == ' ' || c == '\t'

/-- Characters matched by the regex class `\n` in `clean_text`. -/
def isNewlineChar (c : Char) : Bool :=
  c == '\n'

/-- Model of Python `str.strip()`: remove leading and trailing whitespace. -/
def pyStrip (l : List Char) : List Char :=
  ((l.dropWhile isPySpace).reverse.dropWhile isPySpace).reverse

/-- Model of `re.sub(r'-\s*\n\s*', '', text)` from `clean_text` (line 85 of
`pdf_utils.py`): a hyphen followed by a maximal whitespace run containing at
least one newline is deleted together with that whole run (the trailing
greedy `\s*` consumes the complete run); any other character is kept. -/
def dehyphF : Nat → List Char → List Char
  | 0, _ => []
  | _ + 1, [] => []
  | fuel + 1, c :: rest =>
    if c == '-' && (rest.takeWhile isPySpace).contains '\n' then
      dehyphF fuel (rest.dropWhile isPySpace)
    else
      c :: dehyphF fuel rest

/-- De-hyphenation substitution; the fuel of `dehyphF` dominates the length
of the list, so the fuel never runs out (see `dehyph_cons`). -/
def dehyph (l : List Char) : List Char :=
  dehyphF l.length l

theorem dehyphF_congr : ∀ (f1 f2 : Nat) (l : List Char),
    l.length ≤ f1 → l.length ≤ f2 → dehyphF f1 l = dehyphF f2 l := by
  intro f1
  induction f1 with
  | zero =>
    intro f2 l h1 h2
    have hl : l = [] := List.length_eq_zero.mp (by omega)
    subst hl
    cases f2 <;> rfl
  | succ a ih =>
    intro f2 l h1 h2
    cases l with
    | nil => cases f2 <;> rfl
    | cons c rest =>
      cases f2 with
      | zero => simp at h2
      | succ b =>
        simp only [List.length_cons] at h1 h2
        simp only [dehyphF]
        by_cases hc : (c == '-' && (rest.takeWhile isPySpace).contains '\n') = true
        · rw [if_pos hc, if_pos hc]
          have hd : (rest.dropWhile isPySpace).length ≤ rest.length :=
            (List.dropWhile_suffix isPySpace).sublist.length_le
          exact ih b _ (by omega) (by omega)
        · rw [if_neg hc, if_neg hc]
          rw [ih b rest (by omega) (by omega)]

theorem dehyph_nil : dehyph [] = [] := rfl

theorem dehyph_cons (c : Char) (rest : List Char) :
    dehyph (c :: rest) =
      if c == '-' && (rest.takeWhile isPySpace).contains '\n' then
        dehyph (rest.dropWhile isPySpace)
      else
        c :: dehyph rest := by
  unfold dehyph
  simp only [List.length_cons, dehyphF]
  by_cases hc : (c == '-' && (rest.takeWhile isPySpace).contains '\n') = true
  · rw [if_pos hc, if_pos hc]
    exact dehyphF_congr _ _ _
      ((List.dropWhile_suffix isPySpace).sublist.length_le) (Nat.le_refl _)
  · rw [if_neg hc, if_neg hc]

/-- Model of `re.sub` with a pattern of the shape `X+` and a one-character
replacement: each maximal run of characters satisfying `p` is replaced by the
single character `rep`.  The boolean argument records whether the previous
character belonged to the current run. -/
def collapseAux (p : Char → Bool) (rep : Char) : Bool → List Char → List Char
  | _, [] => []
  | inRun, c :: rest =>
    if p c then
      if inRun then collapseAux p rep true rest
      else rep :: collapseAux p rep true rest
    else
      c :: collapseAux p rep false rest

/-- Replace every maximal run of characters satisfying `p` by `rep`;
models `re.sub(r'\n+', '\n', _)` and `re.sub(r'[ \t]+', ' ', _)`. -/
def collapseRuns (p : Char → Bool) (rep : Char) (l : List Char) : List Char :=
  collapseAux p rep false l

/-- Core of `MedicalPaperPreprocessor.clean_text` (lines 84-90 of
`pdf_utils.py`), on character lists: de-hyphenation, newline collapse,
space/tab collapse, strip — in that order. -/
def clean_text_chars (l : List Char) : List Char :=
  pyStrip (collapseRuns isSpaceTab ' ' (collapseRuns isNewlineChar '\n' (dehyph l)))

/-- Model of `MedicalPaperPreprocessor.clean_text`. -/
def clean_text (s : String) : String :=
  String.mk (clean_text_chars s.data)

/-- Model of the Python regex class `\w` (ASCII fragment): letters, digits
and the underscore. -/
def isWordChar (c : Char) : Bool :=
  c.isAlphanum || c == '_'

/-- Position `i` of `l` starts a case-insensitive whole-word occurrence of
the (lowercase) word `w`: the next `w.length` characters lowercase to `w`
and both sides are word boundaries in the sense of the regex `\b`.
Models a match of `re.search(r'\bW\b', text, flags=re.IGNORECASE)` at `i`. -/
def matchesWordAt (w l : List Char) (i : Nat) : Bool :=
  (((l.drop i).take w.length).map Char.toLower == w)
    && (i == 0 || !isWordChar (l.getD (i - 1) ' '))
    && (decide (l.length ≤ i + w.length) || !isWordChar (l.getD (i + w.length) ' '))

/-- Index of the leftmost whole-word occurrence of `w`, as found by
`re.search`. -/
def findWordIdx (w l : List Char) : Option Nat :=
  (List.range l.length).find? (fun i => matchesWordAt w l i)

/-- Model of `text = text[:match.start()]` guarded by `re.search`: truncate
at the leftmost whole-word occurrence of `w`, if any. -/
def truncateAtWord (w l : List Char) : List Char :=
  match findWordIdx w l with
  | some i => l.take i
  | none => l

/-- Truncation step of `extract_main_text_from_pdf` (lines 62-68 of
`pdf_utils.py`): cut at the first "References" occurrence, then cut the
result at its first "Bibliography" occurrence. -/
def truncateSections (l : List Char) : List Char :=
  truncateAtWord "bibliography".data (truncateAtWord "references".data l)

/-- Line predicate of `if not line.strip(): continue` (line 47): the line is
empty after stripping. -/
def isBlankLine (l : List Char) : Bool :=
  (pyStrip l).isEmpty

/-- Tail of the line after the caption keyword, when the line starts (after
optional whitespace) with "Figure", "Fig." or "Table", case-insensitively.
The three regex alternatives have pairwise incompatible prefixes, so the
left-to-right alternation of `re` is an if-else chain. -/
def captionKeywordTail (l : List Char) : Option (List Char) :=
  let t := l.dropWhile isPySpace
  if (t.take 6).map Char.toLower == "figure".data then some (t.drop 6)
  else if (t.take 4).map Char.toLower == "fig.".data then some (t.drop 4)
  else if (t.take 5).map Char.toLower == "table".data then some (t.drop 5)
  else none

/-- Model of `re.match(r'^\s*(Figure|Fig\.|Table)\s*\d+', line, re.IGNORECASE)`
(line 50): keyword, then optional whitespace, then at least one digit. -/
def isCaptionLine (l : List Char) : Bool :=
  match captionKeywordTail l with
  | none => false
  | some t =>
    match (t.dropWhile isPySpace).head? with
    | some c => c.isDigit
    | none => false

/-- Model of `re.match(r'^\d+\s*$', line.strip())` (line 53): the stripped
line is nonempty and consists of digits only. -/
def isPageNumberLine (l : List Char) : Bool :=
  let s := pyStrip l
  !s.isEmpty && s.all Char.isDigit

/-- Line filter of `extract_main_text_from_pdf` (lines 46-55): a line is kept
iff it is not blank, not a caption line and not a page-number line. -/
def keepLine (line : String) : Bool :=
  !isBlankLine line.data && !isCaptionLine line.data && !isPageNumberLine line.data

/-- Model of Python `str.splitlines` (ASCII fragment: `\n`, `\r`, `\r\n`);
the accumulator holds the current line reversed. -/
def splitlinesAux : List Char → List Char → List (List Char)
  | [], acc => if acc.isEmpty then [] else [acc.reverse]
  | c :: rest, acc =>
    if c == '\n' then acc.reverse :: splitlinesAux rest []
    else if c == '\r' then
      if rest.head? == some '\n' then acc.reverse :: splitlinesAux rest.tail []
      else acc.reverse :: splitlinesAux rest []
    else splitlinesAux rest (c :: acc)
termination_by l _ => l.length
decreasing_by all_goals (simp only [List.length_cons, List.length_tail]; omega)

/-- Model of Python `str.splitlines`. -/
def pySplitlines (s : String) : List String :=
  (splitlinesAux s.data []).map String.mk

/-- Model of `MedicalPaperPreprocessor.extract_main_text_from_pdf`
(lines 27-69): the external PDF reader is abstracted into the list of
per-page text strings; each page is split into lines, filtered and joined
with single spaces, pages are joined with newlines, and the result is
truncated at the References / Bibliography sections. -/
def extract_main_text_from_pdf (pages : List String) : String :=
  let pageTexts := pages.map (fun pg => String.intercalate " " ((pySplitlines pg).filter keepLine))
  String.mk (truncateSections (String.intercalate "\n" pageTexts).data)

/-- Inclusive take-until: all elements strictly before the first one
satisfying `p`, together with that element itself.  This is the effect of a
Python `for` loop with a trailing conditional `break`. -/
def takeUntilIncl (p : α → Bool) : List α → List α
  | [] => []
  | x :: xs => if p x then [x] else x :: takeUntilIncl p xs

/-- Window start offsets emitted by the loop of `chunk_text`
(lines 113-119 of `pdf_utils.py`): the elements of
`range(0, total_tokens, step)` up to and including the first start whose
window end `start + chunk_size` reaches or exceeds `total_tokens`. -/
def windowStarts (total size step : Nat) : List Nat :=
  takeUntilIncl (fun s => decide (total ≤ s + size))
    (List.range' 0 ((total + step - 1) / step) step)

/-- Token-position spans `[start, end)` of the emitted chunks, with the end
clamped to the token count as by the Python slice `tokens[start:end]`. -/
def chunkSpans (total size step : Nat) : List (Nat × Nat) :=
  (windowStarts total size step).map (fun s => (s, min (s + size) total))

/-- Core of `MedicalPaperPreprocessor.chunk_text` (lines 105-120) after
tokenization: the configuration guard `step <= 0` (computed in integer
arithmetic), then one chunk per window start, rendered by
`" ".join(tokens[start:start+chunk_size]).strip()`. -/
def chunk_tokens (chunk_size_tokens overlap_tokens : Nat) (tokens : List String) :
    Except String (List String) :=
  if (chunk_size_tokens : Int) - (overlap_tokens : Int) ≤ 0 then
    Except.error "Overlap must be smaller than the chunk size."
  else
    Except.ok ((windowStarts tokens.length chunk_size_tokens
        (chunk_size_tokens - overlap_tokens)).map
      (fun start =>
        String.mk (pyStrip (String.intercalate " "
          ((tokens.drop start).take chunk_size_tokens)).data)))

/-- Model of the `MedicalPaperPreprocessor` instance state: the constructor
arguments together with the spaCy tokenizer, abstracted as a function from
strings to token-text lists. -/
structure MedicalPaperPreprocessor where
  pdf_dir : String
  chunk_size_tokens : Nat
  overlap_tokens : Nat
  tokenize : String → List String

/-- Model of `MedicalPaperPreprocessor.__init__` (lines 9-25): the
constructor only stores its arguments (and builds the tokenizer); it
performs no validation of the chunking configuration and always succeeds. -/
def MedicalPaperPreprocessor.init (pdf_dir : String) (chunk_size_tokens overlap_tokens : Nat)
    (tokenize : String → List String) : MedicalPaperPreprocessor :=
  ⟨pdf_dir, chunk_size_tokens, overlap_tokens, tokenize⟩

/-- Model of `MedicalPaperPreprocessor.chunk_text` (lines 92-120). -/
def MedicalPaperPreprocessor.chunk_text (self : MedicalPaperPreprocessor) (text : String) :
    Except String (List String) :=
  chunk_tokens self.chunk_size_tokens self.overlap_tokens (self.tokenize text)

/-- Model of `MedicalPaperPreprocessor.process_pdf` (lines 122-134). -/
def MedicalPaperPreprocessor.process_pdf (self : MedicalPaperPreprocessor)
    (pages : List String) : Except String (List String) :=
  self.chunk_text (clean_text (extract_main_text_from_pdf pages))

/-- Record emitted by `process_all_pdfs` for one chunk. -/
structure ChunkRecord where
  source : String
  chunk_index : Nat
  text : String

/-- Records produced for one document by the `enumerate(chunks)` loop of
`process_all_pdfs` (lines 147-152). -/
def docRecords (name : String) (chunks : List String) : List ChunkRecord :=
  chunks.enum.map (fun p => ⟨name, p.1, p.2⟩)

/-- Model of `MedicalPaperPreprocessor.process_all_pdfs` (lines 136-153):
documents are abstracted as pairs of a file name and the per-page text
list delivered by the PDF reader. -/
def MedicalPaperPreprocessor.process_all_pdfs (self : MedicalPaperPreprocessor)
    (docs : List (String × List String)) : Except String (List ChunkRecord) :=
  docs.foldlM (fun acc doc => do
    let chunks ← self.process_pdf doc.2
    pure (acc ++ docRecords doc.1 chunks)) []


/-! ### Generic lemmas about the loop combinator `takeUntilIncl` -/

theorem takeUntilIncl_cons (p : α → Bool) (a : α) (t : List α) :
    takeUntilIncl p (a :: t) = if p a then [a] else a :: takeUntilIncl p t := rfl

theorem takeUntilIncl_mem {p : α → Bool} : ∀ {l : List α} {x : α},
    x ∈ takeUntilIncl p l → x ∈ l
  | [], x, h => by simp [takeUntilIncl] at h
  | a :: t, x, h => by
    by_cases hp : p a
    · rw [takeUntilIncl_cons, if_pos hp] at h
      simp only [List.mem_singleton] at h
      simp [h]
    · rw [takeUntilIncl_cons, if_neg hp] at h
      rcases List.mem_cons.mp h with h | h
      · simp [h]
      · exact List.mem_cons_of_mem _ (takeUntilIncl_mem h)

theorem takeUntilIncl_length_le {p : α → Bool} : ∀ (l : List α),
    (takeUntilIncl p l).length ≤ l.length
  | [] => Nat.le_refl _
  | a :: t => by
    by_cases hp : p a
    · rw [takeUntilIncl_cons, if_pos hp]
      simp
    · rw [takeUntilIncl_cons, if_neg hp]
      simp only [List.length_cons]
      exact Nat.succ_le_succ (takeUntilIncl_length_le t)

theorem takeUntilIncl_getD {p : α → Bool} : ∀ (l : List α) (i : Nat) (d : α),
    i < (takeUntilIncl p l).length → (takeUntilIncl p l).getD i d = l.getD i d
  | [], i, d, h => by simp [takeUntilIncl] at h
  | a :: t, i, d, h => by
    by_cases hp : p a
    · rw [takeUntilIncl_cons, if_pos hp] at h ⊢
      simp only [List.length_singleton] at h
      have hi : i = 0 := by omega
      subst hi
      simp
    · rw [takeUntilIncl_cons, if_neg hp] at h ⊢
      cases i with
      | zero => simp
      | succ j =>
        simp only [List.length_cons] at h
        simp only [List.getD_cons_succ]
        exact takeUntilIncl_getD t j d (by omega)

theorem takeUntilIncl_not_last {p : α → Bool} : ∀ (l : List α) (i : Nat) (d : α),
    i + 1 < (takeUntilIncl p l).length → p ((takeUntilIncl p l).getD i d) = false
  | [], i, d, h => by simp [takeUntilIncl] at h
  | a :: t, i, d, h => by
    by_cases hp : p a
    · rw [takeUntilIncl_cons, if_pos hp] at h
      simp at h
    · rw [takeUntilIncl_cons, if_neg hp] at h ⊢
      cases i with
      | zero =>
        simpa using hp
      | succ j =>
        simp only [List.length_cons] at h
        simp only [List.getD_cons_succ]
        exact takeUntilIncl_not_last t j d (by omega)

theorem takeUntilIncl_last {p : α → Bool} : ∀ (l : List α) (d : α),
    (∃ y ∈ l, p y = true) →
    takeUntilIncl p l ≠ [] ∧
      p ((takeUntilIncl p l).getD ((takeUntilIncl p l).length - 1) d) = true
  | [], d, h => by simp at h
  | a :: t, d, h => by
    by_cases hp : p a
    · rw [takeUntilIncl_cons, if_pos hp]
      exact ⟨by simp, by simpa using hp⟩
    · have ht : ∃ y ∈ t, p y = true := by
        rcases h with ⟨y, hy, hpy⟩
        rcases List.mem_cons.mp hy with rfl | hy
        · exact absurd hpy hp
        · exact ⟨y, hy, hpy⟩
      have IH := takeUntilIncl_last t d ht
      rcases List.exists_cons_of_ne_nil IH.1 with ⟨b, u, hbu⟩
      rw [takeUntilIncl_cons, if_neg hp]
      refine ⟨by simp, ?_⟩
      have hidx : (a :: takeUntilIncl p t).getD ((a :: takeUntilIncl p t).length - 1) d
          = (takeUntilIncl p t).getD ((takeUntilIncl p t).length - 1) d := by
        rw [hbu]
        simp
      rw [hidx]
      exact IH.2

/-! ### Arithmetic facts about the ceiling-division length of a Python range -/

theorem mul_lt_total_of_lt_ceilDiv {total step i : Nat} (hstep : 0 < step)
    (hi : i < (total + step - 1) / step) : i * step < total := by
  have h : (i + 1) * step ≤ total + step - 1 :=
    (Nat.le_div_iff_mul_le hstep).mp hi
  rw [Nat.succ_mul] at h
  omega

theorem total_le_ceilDiv_mul {total step : Nat} (hstep : 0 < step) :
    total ≤ ((total + step - 1) / step) * step := by
  have h1 := Nat.div_add_mod (total + step - 1) step
  have h2 : (total + step - 1) % step < step := Nat.mod_lt _ hstep
  rw [Nat.mul_comm]
  omega

/-! ### Window start lemmas for the chunking loop -/

theorem windowStarts_mem_lt {total size step s : Nat} (hstep : 0 < step)
    (hs : s ∈ windowStarts total size step) : s < total := by
  have hmem := takeUntilIncl_mem hs
  rcases List.mem_range'.mp hmem with ⟨i, hi, rfl⟩
  have h := mul_lt_total_of_lt_ceilDiv hstep hi
  rw [Nat.mul_comm] at h
  omega

theorem windowStarts_getD {total size step i : Nat}
    (hi : i < (windowStarts total size step).length) :
    (windowStarts total size step).getD i 0 = i * step := by
  unfold windowStarts at hi ⊢
  rw [takeUntilIncl_getD _ i 0 hi]
  have hlen : i < (total + step - 1) / step := by
    have h1 := takeUntilIncl_length_le (p := fun s => decide (total ≤ s + size))
      (List.range' 0 ((total + step - 1) / step) step)
    have h2 := List.length_range' 0 step ((total + step - 1) / step)
    omega
  rw [List.getD_eq_getElem?_getD, List.getElem?_range' _ _ hlen]
  simp [Nat.mul_comm]

theorem windowStarts_not_last {total size step i : Nat}
    (hi : i + 1 < (windowStarts total size step).length) :
    i * step + size < total := by
  have hgd := @windowStarts_getD total size step i (by omega)
  have h := takeUntilIncl_not_last
    (List.range' 0 ((total + step - 1) / step) step) i 0 hi
  unfold windowStarts at hgd
  rw [hgd] at h
  simp only [decide_eq_false_iff_not, Nat.not_le] at h
  omega

theorem windowStarts_last_reaches {total size step : Nat} (hstep : 0 < step)
    (hsize : step ≤ size) (htotal : 0 < total) :
    windowStarts total size step ≠ [] ∧
      total ≤ (windowStarts total size step).getD
        ((windowStarts total size step).length - 1) 0 + size := by
  have hn : 0 < (total + step - 1) / step := by
    have h : 1 * step ≤ total + step - 1 := by omega
    exact (Nat.le_div_iff_mul_le hstep).mpr h
  have hex : ∃ y ∈ List.range' 0 ((total + step - 1) / step) step,
      (fun s => decide (total ≤ s + size)) y = true := by
    refine ⟨0 + step * (((total + step - 1) / step) - 1),
      List.mem_range'.mpr ⟨((total + step - 1) / step) - 1, by omega, rfl⟩, ?_⟩
    simp only [decide_eq_true_eq, Nat.zero_add]
    have h1 := @total_le_ceilDiv_mul total step hstep
    have h2 : ((total + step - 1) / step) * step
        = (((total + step - 1) / step) - 1) * step + step := by
      rw [← Nat.succ_mul, Nat.succ_eq_add_one, Nat.sub_add_cancel hn]
    rw [Nat.mul_comm step]
    omega
  have H := takeUntilIncl_last
    (List.range' 0 ((total + step - 1) / step) step) 0 hex
  constructor
  · exact H.1
  · have h2 := H.2
    simp only [decide_eq_true_eq] at h2
    exact h2

/-- Claim C1: with chunk_size_tokens 500 and overlap_tokens 50 (step 450), a
520-token input yields exactly 2 chunks covering token spans [0,500) and
[450,520); in general every emitted window start lies strictly before
end-of-input, every window except the last has end strictly below the token
count (the loop stops right after the first window whose end reaches or
exceeds it), and under a valid configuration the last emitted window indeed
reaches end-of-input. -/
theorem chunk_window_layout :
    chunkSpans 520 500 450 = [(0, 500), (450, 520)] ∧
    (∀ tokens : List String, tokens.length = 520 →
      (chunk_tokens 500 50 tokens).map List.length = Except.ok 2) ∧
    (∀ total size step, 0 < step →
      ∀ s ∈ windowStarts total size step, s < total) ∧
    (∀ total size step i, i + 1 < (windowStarts total size step).length →
      i * step + size < total) ∧
    (∀ total size step, 0 < step → step ≤ size → 0 < total →
      total ≤ (windowStarts total size step).getD
        ((windowStarts total size step).length - 1) 0 + size) := by
  refine ⟨by decide, ?_, ?_, ?_, ?_⟩
  · intro tokens htok
    unfold chunk_tokens
    rw [if_neg (by decide)]
    rw [htok]
    have hlen : (windowStarts 520 500 450).length = 2 := by decide
    simp [Except.map, hlen]
  · intro total size step h s hs
    exact windowStarts_mem_lt h hs
  · intro total size step i hi
    exact windowStarts_not_last hi
  · intro total size step h1 h2 h3
    exact (windowStarts_last_reaches h1 h2 h3).2

theorem chunk_window_layout_witness : (450 : Nat) < 520 :=
  chunk_window_layout.2.2.1 520 500 450 (by decide) 450 (by decide)

/-- Claim C2: chunking fails with the configuration error exactly when
overlap_tokens is at least chunk_size_tokens, uniformly in the token input
(so before any windowing), while the constructor stores its arguments
without any validation. -/
theorem chunk_error_iff_config :
    (∀ (size overlap : Nat) (tokens : List String),
      (∃ e, chunk_tokens size overlap tokens = Except.error e) ↔ size ≤ overlap) ∧
    (∀ (dir : String) (size overlap : Nat) (tok : String → List String),
      MedicalPaperPreprocessor.init dir size overlap tok = ⟨dir, size, overlap, tok⟩) := by
  refine ⟨?_, fun dir size overlap tok => rfl⟩
  intro size overlap tokens
  unfold chunk_tokens
  by_cases h : (size : Int) - (overlap : Int) ≤ 0
  · rw [if_pos h]
    have hle : size ≤ overlap := by exact_mod_cast sub_nonpos.mp h
    simp [hle]
  · rw [if_neg h]
    have hgt : ¬ size ≤ overlap := by
      intro hc
      exact h (sub_nonpos.mpr (by exact_mod_cast hc))
    simp [hgt]

/-- Claim C6: whenever the tokenizer produces zero tokens from the input and
the configuration is valid, chunk_text returns an empty chunk list. -/
theorem chunk_empty_tokens (self : MedicalPaperPreprocessor) (text : String)
    (hvalid : self.overlap_tokens < self.chunk_size_tokens)
    (hz : self.tokenize text = []) :
    self.chunk_text text = Except.ok [] := by
  unfold MedicalPaperPreprocessor.chunk_text chunk_tokens
  rw [hz]
  rw [if_neg (by
    intro hc
    have := sub_nonpos.mp hc
    have : self.chunk_size_tokens ≤ self.overlap_tokens := by exact_mod_cast this
    omega)]
  have hzero : windowStarts (List.length ([] : List String)) self.chunk_size_tokens
      (self.chunk_size_tokens - self.overlap_tokens) = [] := by
    unfold windowStarts
    have hn : (0 + (self.chunk_size_tokens - self.overlap_tokens) - 1)
        / (self.chunk_size_tokens - self.overlap_tokens) = 0 :=
      Nat.div_eq_of_lt (by omega)
    simp only [List.length_nil, hn, List.range']
    rfl
  rw [hzero]
  rfl

theorem chunk_empty_tokens_witness :
    MedicalPaperPreprocessor.chunk_text ⟨"papers", 500, 50, fun _ => []⟩ ""
      = Except.ok [] :=
  chunk_empty_tokens ⟨"papers", 500, 50, fun _ => []⟩ "" (by decide) rfl

/-- Claim C10: with overlap_tokens at least chunk_size_tokens, chunk_text
raises the configuration error for every input text, including one that
tokenizes to zero tokens; the guard precedes the (empty) windowing loop. -/
theorem chunk_error_all_inputs (self : MedicalPaperPreprocessor) (text : String)
    (hcfg : self.chunk_size_tokens ≤ self.overlap_tokens) :
    self.chunk_text text = Except.error "Overlap must be smaller than the chunk size." := by
  unfold MedicalPaperPreprocessor.chunk_text chunk_tokens
  rw [if_pos (sub_nonpos.mpr (by exact_mod_cast hcfg))]

theorem chunk_error_all_inputs_witness :
    MedicalPaperPreprocessor.chunk_text ⟨"papers", 5, 5, fun _ => []⟩ ""
      = Except.error "Overlap must be smaller than the chunk size." :=
  chunk_error_all_inputs ⟨"papers", 5, 5, fun _ => []⟩ "" (by decide)

/-- Claim C7: the line filter drops the caption line "Figure 3 shows..."
(keyword, then a number), drops the digits-only line "  42  ", and keeps the
line "Table" because no number follows the keyword. -/
theorem line_filter_examples :
    isCaptionLine "Figure 3 shows...".data = true ∧
    keepLine "Figure 3 shows..." = false ∧
    isPageNumberLine "  42  ".data = true ∧
    keepLine "  42  " = false ∧
    isCaptionLine "Table".data = false ∧
    isPageNumberLine "Table".data = false ∧
    keepLine "Table" = true := by
  decide

/-- Claim C9: normalization removes a hyphen directly followed by a line
break without inserting a replacement character. -/
theorem clean_text_dehyphenation_example :
    clean_text "word1-\nword2 word3" = "word1word2 word3" := by
  decide

/-! ### Chunk span characterization and the overlap invariant -/

theorem getD_map_of_lt {α β : Type} (f : α → β) (l : List α) (i : Nat) (d : β) (d0 : α)
    (hi : i < l.length) : (l.map f).getD i d = f (l.getD i d0) := by
  rw [List.getD_eq_getElem?_getD, List.getElem?_map, List.getElem?_eq_getElem hi,
    List.getD_eq_getElem?_getD, List.getElem?_eq_getElem hi]
  rfl

theorem chunkSpans_length (total size step : Nat) :
    (chunkSpans total size step).length = (windowStarts total size step).length := by
  unfold chunkSpans
  exact List.length_map _ _

theorem chunkSpans_getD {total size step i : Nat}
    (hi : i < (chunkSpans total size step).length) :
    (chunkSpans total size step).getD i (0, 0)
      = (i * step, min (i * step + size) total) := by
  rw [chunkSpans_length] at hi
  unfold chunkSpans
  rw [getD_map_of_lt _ _ i (0, 0) 0 hi]
  rw [windowStarts_getD hi]

/-- Claim C3: per document the emitted chunk records carry contiguous
zero-based indices, and for a valid configuration every chunk token span
shares exactly overlap_tokens positions with the span of the previous
chunk, each span holding at most chunk_size_tokens positions. -/
theorem chunk_overlap_invariant :
    (∀ (name : String) (chunks : List String),
      (docRecords name chunks).map ChunkRecord.chunk_index = List.range chunks.length) ∧
    (∀ total size overlap i, 0 < overlap → overlap < size →
      i + 1 < (chunkSpans total size (size - overlap)).length →
      ((chunkSpans total size (size - overlap)).getD (i + 1) (0, 0)).1
          = ((chunkSpans total size (size - overlap)).getD i (0, 0)).1 + (size - overlap) ∧
        (Finset.Ico ((chunkSpans total size (size - overlap)).getD (i + 1) (0, 0)).1
            ((chunkSpans total size (size - overlap)).getD (i + 1) (0, 0)).2 ∩
          Finset.Ico ((chunkSpans total size (size - overlap)).getD i (0, 0)).1
            ((chunkSpans total size (size - overlap)).getD i (0, 0)).2).card = overlap) ∧
    (∀ total size step sp, sp ∈ chunkSpans total size step → sp.2 - sp.1 ≤ size) := by
  refine ⟨?_, ?_, ?_⟩
  · intro name chunks
    have hcomp : (ChunkRecord.chunk_index ∘ fun p : Nat × String =>
        (⟨name, p.1, p.2⟩ : ChunkRecord)) = Prod.fst := rfl
    unfold docRecords
    rw [List.map_map, hcomp, List.enum_eq_zip_range,
      List.map_fst_zip _ _ (by simp)]
  · intro total size overlap i hov hlt hi
    have hlen2 : i + 1 < (windowStarts total size (size - overlap)).length := by
      rw [chunkSpans_length] at hi
      exact hi
    have hnl : i * (size - overlap) + size < total := windowStarts_not_last hlen2
    have hg1 : (chunkSpans total size (size - overlap)).getD i (0, 0)
        = (i * (size - overlap), min (i * (size - overlap) + size) total) :=
      chunkSpans_getD (by omega)
    have hg2 : (chunkSpans total size (size - overlap)).getD (i + 1) (0, 0)
        = ((i + 1) * (size - overlap), min ((i + 1) * (size - overlap) + size) total) :=
      chunkSpans_getD hi
    rw [hg1, hg2]
    have hsucc : (i + 1) * (size - overlap) = i * (size - overlap) + (size - overlap) :=
      Nat.succ_mul i (size - overlap)
    constructor
    · simpa using hsucc
    · rw [Finset.Ico_inter_Ico]
      have e1 : min (i * (size - overlap) + size) total = i * (size - overlap) + size :=
        Nat.min_eq_left (by omega)
      rw [e1]
      have hmax : max ((i + 1) * (size - overlap)) (i * (size - overlap))
          = (i + 1) * (size - overlap) :=
        Nat.max_eq_left (by omega)
      have hmin : min (min ((i + 1) * (size - overlap) + size) total)
          (i * (size - overlap) + size) = i * (size - overlap) + size :=
        Nat.min_eq_right (Nat.le_min.mpr ⟨by omega, by omega⟩)
      rw [hmax, hmin, Nat.card_Ico, hsucc]
      omega
  · intro total size step sp hsp
    unfold chunkSpans at hsp
    rcases List.mem_map.mp hsp with ⟨s, _, rfl⟩
    have := Nat.min_le_left (s + size) total
    simp only
    omega

theorem chunk_overlap_invariant_witness :
    (Finset.Ico ((chunkSpans 1030 500 450).getD 1 (0, 0)).1
        ((chunkSpans 1030 500 450).getD 1 (0, 0)).2 ∩
      Finset.Ico ((chunkSpans 1030 500 450).getD 0 (0, 0)).1
        ((chunkSpans 1030 500 450).getD 0 (0, 0)).2).card = 50 :=
  (chunk_overlap_invariant.2.1 1030 500 50 0 (by decide) (by decide) (by decide)).2

/-! ### Whole-word search lemmas for the References / Bibliography truncation -/

theorem getD_take_of_lt {α : Type} (l : List α) (n j : Nat) (d : α) (h : j < n) :
    (l.take n).getD j d = l.getD j d := by
  rw [List.getD_eq_getElem?_getD, List.getElem?_take_of_lt h, ← List.getD_eq_getElem?_getD]

theorem getD_drop {α : Type} (l : List α) (n j : Nat) (d : α) :
    (l.drop n).getD j d = l.getD (n + j) d := by
  rw [List.getD_eq_getElem?_getD, List.getElem?_drop, ← List.getD_eq_getElem?_getD]

theorem findWordIdx_some {w l : List Char} {i : Nat} (h : findWordIdx w l = some i) :
    matchesWordAt w l i = true ∧ i < l.length := by
  unfold findWordIdx at h
  refine ⟨List.find?_some h, ?_⟩
  have hm := List.mem_of_find?_eq_some h
  simpa using hm

theorem findWordIdx_eq_none {w l : List Char}
    (h : ∀ k, k < l.length → matchesWordAt w l k = false) :
    findWordIdx w l = none := by
  unfold findWordIdx
  rw [List.find?_eq_none]
  intro x hx
  have hxl := List.mem_range.mp hx
  simp [h x hxl]

theorem truncateAtWord_some {w l : List Char} {i : Nat} (h : findWordIdx w l = some i) :
    truncateAtWord w l = l.take i := by
  unfold truncateAtWord
  rw [h]

theorem truncateAtWord_none {w l : List Char} (h : findWordIdx w l = none) :
    truncateAtWord w l = l := by
  unfold truncateAtWord
  rw [h]

theorem matchesWordAt_le {w l : List Char} {k : Nat} (hw : 0 < w.length)
    (h : matchesWordAt w l k = true) : k + w.length ≤ l.length := by
  simp only [matchesWordAt, Bool.and_eq_true, beq_iff_eq] at h
  have hlen := congrArg List.length h.1.1
  simp only [List.length_map, List.length_take, List.length_drop] at hlen
  omega

theorem toLower_getD_of_matches {w t : List Char} {k j : Nat} (hj : j < w.length)
    (h : matchesWordAt w t k = true) :
    Char.toLower (t.getD (k + j) ' ') = w.getD j ' ' := by
  have hk := matchesWordAt_le (by omega) h
  simp only [matchesWordAt, Bool.and_eq_true, beq_iff_eq] at h
  have h1 := congrArg (fun x => x.getD j ' ') h.1.1
  simp only at h1
  rw [getD_map_of_lt Char.toLower _ j ' ' ' ' (by
    simp only [List.length_take, List.length_drop]
    omega)] at h1
  rw [getD_take_of_lt _ _ _ _ hj, getD_drop] at h1
  exact h1

theorem matchesWordAt_of_take {w t : List Char} {i k : Nat} (hw : 0 < w.length)
    (hik : k + w.length < i) (hi : i ≤ t.length)
    (h : matchesWordAt w (t.take i) k = true) : matchesWordAt w t k = true := by
  have hTlen : (t.take i).length = i := by
    simp only [List.length_take]
    omega
  simp only [matchesWordAt, Bool.and_eq_true, beq_iff_eq] at h ⊢
  obtain ⟨⟨h1, h2⟩, h3⟩ := h
  refine ⟨⟨?_, ?_⟩, ?_⟩
  · have hsl : List.take w.length (List.drop k (List.take i t))
        = List.take w.length (List.drop k t) := by
      rw [List.drop_take, List.take_take, Nat.min_eq_left (by omega)]
    rw [← hsl]
    exact h1
  · by_cases hk0 : k = 0
    · subst hk0
      simp
    · have hb : (k == 0) = false := by simp [hk0]
      rw [hb, Bool.false_or] at h2 ⊢
      rw [getD_take_of_lt _ _ _ _ (by omega)] at h2
      exact h2
  · rw [hTlen] at h3
    have hdec : decide ((t.take i).length ≤ k + w.length) = false := by
      rw [hTlen]
      simp only [decide_eq_false_iff_not]
      omega
    rw [hTlen] at hdec
    rw [hdec, Bool.false_or] at h3
    rw [getD_take_of_lt _ _ _ _ (by omega)] at h3
    rw [h3, Bool.or_true]

theorem isWordChar_of_toLower_y (c : Char) (h : Char.toLower c = 'y') :
    isWordChar c = true := by
  by_cases hc : Char.toNat c ≥ 65 ∧ Char.toNat c ≤ 90
  · obtain ⟨h1, h2⟩ := hc
    rw [← Char.ofNat_toNat c]
    revert h1 h2
    generalize Char.toNat c = n
    intro h1 h2
    interval_cases n <;> decide
  · have h2 : c = 'y' := by
      unfold Char.toLower at h
      rw [if_neg hc] at h
      exact h
    rw [h2]
    decide

/-- Claim C5 counterexample: a text that contains a whole-word References
occurrence and a later Bibliography occurrence, but also a Bibliography
occurrence before the References one, keeps nothing at all: the earlier
Bibliography survives the References cut and the second truncation then
discards the whole remaining prefix, not just the content after References. -/
theorem truncate_refs_bib_counterexample :
    findWordIdx "references".data
      "Bibliography a References b Bibliography".data = some 15 ∧
    matchesWordAt "bibliography".data
      "Bibliography a References b Bibliography".data 28 = true ∧
    truncateSections "Bibliography a References b Bibliography".data = [] ∧
    "Bibliography a References b Bibliography".data.take 15 ≠ [] := by
  decide

/-- Claim C5 (amended): truncation cuts at the first case-insensitive
whole-word References occurrence and then truncates the result at its first
Bibliography occurrence; consequently, for any text containing References
(first whole-word occurrence at position i) and a later whole-word
Bibliography, with no whole-word Bibliography occurrence before the
References occurrence, exactly the content strictly before the References
occurrence survives. -/
theorem truncate_refs_then_bib (t : List Char) (i : Nat)
    (href : findWordIdx "references".data t = some i)
    (hnobib : ∀ k, k < i → matchesWordAt "bibliography".data t k = false)
    (hlater : ∃ j, i < j ∧ matchesWordAt "bibliography".data t j = true) :
    truncateSections t = t.take i := by
  obtain ⟨hm, hilt⟩ := findWordIdx_some href
  unfold truncateSections
  rw [truncateAtWord_some href]
  apply truncateAtWord_none
  apply findWordIdx_eq_none
  intro k hk
  cases hb : matchesWordAt "bibliography".data (t.take i) k with
  | false => rfl
  | true =>
    exfalso
    have h12 : ("bibliography".data).length = 12 := by decide
    have hw12 : (0 : Nat) < ("bibliography".data).length := by decide
    have hlen := matchesWordAt_le hw12 hb
    have hTlen : (t.take i).length = i := by
      simp only [List.length_take]
      omega
    rw [hTlen] at hlen
    by_cases hcase : k + ("bibliography".data).length < i
    · have hmt := matchesWordAt_of_take hw12 hcase (Nat.le_of_lt hilt) hb
      have hcontra := hnobib k (by omega)
      rw [hmt] at hcontra
      exact Bool.noConfusion hcontra
    · have hy := toLower_getD_of_matches (w := "bibliography".data)
        (j := 11) (by decide) hb
      have hy11 : ("bibliography".data).getD 11 ' ' = 'y' := by decide
      rw [hy11] at hy
      rw [getD_take_of_lt _ _ _ _ (by omega)] at hy
      have hword := isWordChar_of_toLower_y _ hy
      simp only [matchesWordAt, Bool.and_eq_true] at hm
      have hbef := hm.1.2
      have hi0 : (i == 0) = false := by
        simp only [beq_eq_false_iff_ne, ne_eq]
        omega
      rw [hi0, Bool.false_or] at hbef
      have hidx : i - 1 = k + 11 := by omega
      rw [hidx, hword] at hbef
      simp at hbef

theorem truncate_refs_then_bib_witness :
    truncateSections "abc References xyz Bibliography tail".data
      = "abc References xyz Bibliography tail".data.take 4 :=
  truncate_refs_then_bib _ 4 (by decide) (by decide) ⟨19, by decide, by decide⟩

/-! ### Fixpoint predicates for the normalization passes -/

/-- Nothing left for the de-hyphenation pass: no hyphen is followed by a
whitespace run containing a newline. -/
def noHyphNL : List Char → Bool
  | [] => true
  | c :: rest =>
    (if c == '-' then !((rest.takeWhile isPySpace).contains '\n') else true)
      && noHyphNL rest

/-- Nothing left for a run-collapsing pass: every character satisfying `p`
equals `rep` and is not followed by another character satisfying `p`. -/
def okRuns (p : Char → Bool) (rep : Char) : List Char → Bool
  | [] => true
  | [c] => !(p c) || (c == rep)
  | c :: d :: rest => (!(p c) || ((c == rep) && !(p d))) && okRuns p rep (d :: rest)

/-- Nothing left for the strip pass: no leading or trailing whitespace. -/
def noEdgeWS (l : List Char) : Bool :=
  (l.head?.all fun c => !isPySpace c) && (l.getLast?.all fun c => !isPySpace c)

/-- Claim C8 shape: no two adjacent characters both satisfy `p`. -/
def noTwoAdjacent (p : Char → Bool) : List Char → Bool
  | [] => true
  | [_] => true
  | c :: d :: rest => !(p c && p d) && noTwoAdjacent p (d :: rest)

/-! ### The de-hyphenation pass: output invariant and fixpoint -/

theorem dropWhile_head_false {p : Char → Bool} : ∀ (l : List Char) (c : Char),
    (l.dropWhile p).head? = some c → p c = false
  | [], c, h => by simp at h
  | a :: t, c, h => by
    by_cases hp : p a
    · rw [List.dropWhile_cons_of_pos hp] at h
      exact dropWhile_head_false t c h
    · rw [List.dropWhile_cons_of_neg hp] at h
      simp only [List.head?_cons, Option.some.injEq] at h
      subst h
      simpa using hp

theorem takeWhile_nil_of_head {p : Char → Bool} (l : List Char)
    (h : ∀ c, l.head? = some c → p c = false) : l.takeWhile p = [] := by
  cases l with
  | nil => rfl
  | cons c t =>
    have hc := h c rfl
    rw [List.takeWhile_cons_of_neg (by simp [hc])]

theorem dehyph_of_noHyphNL : ∀ l : List Char, noHyphNL l = true → dehyph l = l := by
  intro l h
  induction l with
  | nil => rfl
  | cons c rest ih =>
    simp only [noHyphNL, Bool.and_eq_true] at h
    rw [dehyph_cons]
    by_cases hc : (c == '-') = true
    · rw [if_pos hc] at h
      have hcont : ((rest.takeWhile isPySpace).contains '\n') = false := by
        have := h.1
        simp only [Bool.not_eq_true'] at this
        exact this
      rw [hc, hcont]
      simp only [Bool.and_false, Bool.false_eq_true, if_neg, not_false_iff]
      rw [ih h.2]
    · have hc' : (c == '-') = false := by
        simp only [Bool.not_eq_true] at hc
        exact hc
      rw [hc']
      simp only [Bool.false_and, Bool.false_eq_true, if_neg, not_false_iff]
      rw [ih h.2]

theorem dehyph_head_not_space : ∀ l : List Char,
    (∀ c, l.head? = some c → isPySpace c = false) →
    ∀ d, (dehyph l).head? = some d → isPySpace d = false
  | [], _, d, hd => by simp [dehyph_nil] at hd
  | c :: rest, h, d, hd => by
    rw [dehyph_cons] at hd
    by_cases hc : (c == '-' && (rest.takeWhile isPySpace).contains '\n') = true
    · rw [if_pos hc] at hd
      exact dehyph_head_not_space (rest.dropWhile isPySpace)
        (fun e he => dropWhile_head_false rest e he) d hd
    · rw [if_neg hc] at hd
      simp only [List.head?_cons, Option.some.injEq] at hd
      subst hd
      exact h c rfl
termination_by l => l.length
decreasing_by
  all_goals
    (have _h9 := (List.dropWhile_suffix (l := rest) isPySpace).sublist.length_le
     simp only [List.length_cons]
     omega)

theorem dehyph_takeWhile_no_nl : ∀ l : List Char,
    ((l.takeWhile isPySpace).contains '\n') = false →
    (((dehyph l).takeWhile isPySpace).contains '\n') = false
  | [], _ => by rw [dehyph_nil]; decide
  | c :: rest, h => by
    rw [dehyph_cons]
    by_cases hS : isPySpace c = true
    · rw [List.takeWhile_cons_of_pos hS] at h
      simp only [List.contains_cons, Bool.or_eq_false_iff] at h
      have hcdash : (c == '-') = false := by
        cases hdash : (c == '-') with
        | false => rfl
        | true =>
          have : c = '-' := by simpa using hdash
          subst this
          simp [isPySpace] at hS
      rw [hcdash]
      simp only [Bool.false_and, Bool.false_eq_true, if_neg, not_false_iff]
      rw [List.takeWhile_cons_of_pos hS]
      simp only [List.contains_cons, Bool.or_eq_false_iff]
      exact ⟨h.1, dehyph_takeWhile_no_nl rest h.2⟩
    · by_cases hc : (c == '-' && (rest.takeWhile isPySpace).contains '\n') = true
      · rw [if_pos hc]
        have hhead := dehyph_head_not_space (rest.dropWhile isPySpace)
          (fun e he => dropWhile_head_false rest e he)
        rw [takeWhile_nil_of_head _ hhead]
        rfl
      · rw [if_neg hc]
        rw [List.takeWhile_cons_of_neg (by simpa using hS)]
        rfl
termination_by l => l.length
decreasing_by
  all_goals
    (have _h9 := (List.dropWhile_suffix (l := rest) isPySpace).sublist.length_le
     simp only [List.length_cons]
     omega)

theorem noHyphNL_dehyph : ∀ l : List Char, noHyphNL (dehyph l) = true
  | [] => by rw [dehyph_nil]; rfl
  | c :: rest => by
    rw [dehyph_cons]
    by_cases hc : (c == '-' && (rest.takeWhile isPySpace).contains '\n') = true
    · rw [if_pos hc]
      exact noHyphNL_dehyph (rest.dropWhile isPySpace)
    · rw [if_neg hc]
      simp only [noHyphNL, Bool.and_eq_true]
      refine ⟨?_, noHyphNL_dehyph rest⟩
      by_cases hdash : (c == '-') = true
      · rw [if_pos hdash]
        rw [hdash, Bool.true_and] at hc
        have hcont : ((rest.takeWhile isPySpace).contains '\n') = false := by
          simp only [Bool.not_eq_true] at hc
          exact hc
        rw [dehyph_takeWhile_no_nl rest hcont]
        rfl
      · rw [if_neg hdash]
termination_by l => l.length
decreasing_by
  all_goals
    (have _h9 := (List.dropWhile_suffix (l := rest) isPySpace).sublist.length_le
     simp only [List.length_cons]
     omega)

/-! ### Run collapsing: output invariant and fixpoint -/

theorem collapseAux_nil (p : Char → Bool) (rep : Char) (flag : Bool) :
    collapseAux p rep flag [] = [] := rfl

theorem collapseAux_cons_pos {p : Char → Bool} {rep c : Char} (rest : List Char)
    (hc : p c = true) :
    collapseAux p rep true (c :: rest) = collapseAux p rep true rest ∧
    collapseAux p rep false (c :: rest) = rep :: collapseAux p rep true rest := by
  constructor <;> simp [collapseAux, hc]

theorem collapseAux_cons_neg {p : Char → Bool} {rep c : Char} (rest : List Char)
    (hc : p c = false) (flag : Bool) :
    collapseAux p rep flag (c :: rest) = c :: collapseAux p rep false rest := by
  cases flag <;> simp [collapseAux, hc]

theorem collapseAux_true_head {p : Char → Bool} {rep : Char} : ∀ (l : List Char) (d : Char),
    (collapseAux p rep true l).head? = some d → p d = false
  | [], d, h => by simp [collapseAux_nil] at h
  | c :: rest, d, h => by
    by_cases hp : p c = true
    · rw [(collapseAux_cons_pos rest hp).1] at h
      exact collapseAux_true_head rest d h
    · rw [collapseAux_cons_neg rest (by simpa using hp) true] at h
      simp only [List.head?_cons, Option.some.injEq] at h
      subst h
      simpa using hp

theorem collapseAux_false_head {p : Char → Bool} {rep : Char} (l : List Char) (d : Char)
    (h : (collapseAux p rep false l).head? = some d) : d = rep ∨ l.head? = some d := by
  cases l with
  | nil => simp [collapseAux_nil] at h
  | cons c rest =>
    by_cases hp : p c = true
    · rw [(collapseAux_cons_pos rest hp).2] at h
      simp only [List.head?_cons, Option.some.injEq] at h
      exact Or.inl h.symm
    · rw [collapseAux_cons_neg rest (by simpa using hp) false] at h
      simp only [List.head?_cons, Option.some.injEq] at h
      subst h
      exact Or.inr rfl

theorem okRuns_tail {p : Char → Bool} {rep c : Char} {t : List Char}
    (h : okRuns p rep (c :: t) = true) : okRuns p rep t = true := by
  cases t with
  | nil => rfl
  | cons d rest =>
    simp only [okRuns, Bool.and_eq_true] at h
    exact h.2

theorem okRuns_cons {p : Char → Bool} {rep c : Char} {t : List Char}
    (hhead : p c = false ∨ (c = rep ∧ ∀ d, t.head? = some d → p d = false))
    (ht : okRuns p rep t = true) : okRuns p rep (c :: t) = true := by
  cases t with
  | nil =>
    simp only [okRuns]
    rcases hhead with h | ⟨hrep, _⟩
    · simp [h]
    · subst hrep
      simp
  | cons d rest =>
    simp only [okRuns, Bool.and_eq_true]
    refine ⟨?_, ht⟩
    rcases hhead with h | ⟨hrep, hnd⟩
    · simp [h]
    · subst hrep
      have hd : p d = false := hnd d rfl
      simp [hd]

theorem collapseAux_of_okRuns {p : Char → Bool} {rep : Char} : ∀ l : List Char,
    okRuns p rep l = true → collapseAux p rep false l = l
  | [], _ => rfl
  | c :: rest, h => by
    by_cases hp : p c = true
    · cases rest with
      | nil =>
        simp only [okRuns, hp, Bool.not_true, Bool.false_or] at h
        have hrep : c = rep := by simpa using h
        rw [(collapseAux_cons_pos [] hp).2]
        rw [collapseAux_nil, hrep]
      | cons d rest2 =>
        simp only [okRuns, hp, Bool.not_true, Bool.false_or, Bool.and_eq_true] at h
        have hrep : c = rep := by simpa using h.1.1
        have hd : p d = false := by
          have := h.1.2
          simpa using this
        rw [(collapseAux_cons_pos (d :: rest2) hp).2]
        rw [collapseAux_cons_neg rest2 hd true, ← collapseAux_cons_neg rest2 hd false]
        rw [collapseAux_of_okRuns (d :: rest2) h.2, hrep]
    · have hp' : p c = false := by simpa using hp
      rw [collapseAux_cons_neg rest hp' false]
      rw [collapseAux_of_okRuns rest (okRuns_tail h)]

theorem okRuns_collapseAux (p : Char → Bool) (rep : Char) : ∀ (l : List Char) (flag : Bool),
    okRuns p rep (collapseAux p rep flag l) = true
  | [], flag => by rw [collapseAux_nil]; rfl
  | c :: rest, flag => by
    by_cases hp : p c = true
    · cases flag with
      | true =>
        rw [(collapseAux_cons_pos rest hp).1]
        exact okRuns_collapseAux p rep rest true
      | false =>
        rw [(collapseAux_cons_pos rest hp).2]
        refine okRuns_cons ?_ (okRuns_collapseAux p rep rest true)
        exact Or.inr ⟨rfl, fun d hd => collapseAux_true_head rest d hd⟩
    · have hp' : p c = false := by simpa using hp
      rw [collapseAux_cons_neg rest hp' flag]
      exact okRuns_cons (Or.inl hp') (okRuns_collapseAux p rep rest false)

theorem noTwoAdjacent_of_okRuns {p : Char → Bool} {rep : Char} : ∀ l : List Char,
    okRuns p rep l = true → noTwoAdjacent p l = true
  | [], _ => rfl
  | [_], _ => rfl
  | c :: d :: rest, h => by
    simp only [okRuns, Bool.and_eq_true] at h
    simp only [noTwoAdjacent, Bool.and_eq_true]
    refine ⟨?_, noTwoAdjacent_of_okRuns (d :: rest) h.2⟩
    rcases Bool.or_eq_true_iff.mp h.1 with h1 | h1
    · simp only [Bool.not_eq_true'] at h1 ⊢
      simp [h1]
    · have hd : p d = false := by
        simp only [Bool.and_eq_true] at h1
        simpa using h1.2
      simp [hd]

/-! ### Interaction of the collapsing passes with the other predicates -/

theorem noHyphNL_cons_intro (c : Char) (t : List Char)
    (hc : c = '-' → ((t.takeWhile isPySpace).contains '\n') = false)
    (ht : noHyphNL t = true) : noHyphNL (c :: t) = true := by
  simp only [noHyphNL, Bool.and_eq_true]
  refine ⟨?_, ht⟩
  by_cases hdash : (c == '-') = true
  · rw [if_pos hdash]
    rw [hc (by simpa using hdash)]
    rfl
  · rw [if_neg hdash]

theorem noHyphNL_cons_elim {c : Char} {t : List Char} (h : noHyphNL (c :: t) = true) :
    (c = '-' → ((t.takeWhile isPySpace).contains '\n') = false) ∧ noHyphNL t = true := by
  simp only [noHyphNL, Bool.and_eq_true] at h
  refine ⟨fun hc => ?_, h.2⟩
  subst hc
  have h1 := h.1
  rw [if_pos (by decide : (('-' : Char) == '-') = true)] at h1
  simpa using h1

theorem collapseNL_takeWhile_no_nl : ∀ (l : List Char) (flag : Bool),
    ((l.takeWhile isPySpace).contains '\n') = false →
    (((collapseAux isNewlineChar '\n' flag l).takeWhile isPySpace).contains '\n') = false
  | [], flag, _ => by rw [collapseAux_nil]; decide
  | c :: rest, flag, h => by
    by_cases hn : isNewlineChar c = true
    · exfalso
      have hceq : c = '\n' := by simpa [isNewlineChar] using hn
      subst hceq
      rw [List.takeWhile_cons_of_pos (by decide)] at h
      simp [List.contains_cons] at h
    · have hn' : isNewlineChar c = false := by simpa using hn
      rw [collapseAux_cons_neg rest hn' flag]
      by_cases hS : isPySpace c = true
      · rw [List.takeWhile_cons_of_pos hS] at h ⊢
        simp only [List.contains_cons, Bool.or_eq_false_iff] at h ⊢
        exact ⟨h.1, collapseNL_takeWhile_no_nl rest false h.2⟩
      · rw [List.takeWhile_cons_of_neg (by simpa using hS)]
        decide

theorem spaceTab_isPySpace {c : Char} (h : isSpaceTab c = true) : isPySpace c = true := by
  have hc : c = ' ' ∨ c = '\t' := by
    simpa [isSpaceTab] using h
  rcases hc with rfl | rfl <;> decide

theorem collapseST_takeWhile_no_nl : ∀ (l : List Char) (flag : Bool),
    ((l.takeWhile isPySpace).contains '\n') = false →
    (((collapseAux isSpaceTab ' ' flag l).takeWhile isPySpace).contains '\n') = false
  | [], flag, _ => by rw [collapseAux_nil]; decide
  | c :: rest, flag, h => by
    by_cases hT : isSpaceTab c = true
    · rw [List.takeWhile_cons_of_pos (spaceTab_isPySpace hT)] at h
      simp only [List.contains_cons, Bool.or_eq_false_iff] at h
      cases flag with
      | true =>
        rw [(collapseAux_cons_pos rest hT).1]
        exact collapseST_takeWhile_no_nl rest true h.2
      | false =>
        rw [(collapseAux_cons_pos rest hT).2]
        rw [List.takeWhile_cons_of_pos (by decide : isPySpace ' ' = true)]
        simp only [List.contains_cons, Bool.or_eq_false_iff]
        exact ⟨by decide, collapseST_takeWhile_no_nl rest true h.2⟩
    · have hT' : isSpaceTab c = false := by simpa using hT
      rw [collapseAux_cons_neg rest hT' flag]
      by_cases hS : isPySpace c = true
      · rw [List.takeWhile_cons_of_pos hS] at h ⊢
        simp only [List.contains_cons, Bool.or_eq_false_iff] at h ⊢
        exact ⟨h.1, collapseST_takeWhile_no_nl rest false h.2⟩
      · rw [List.takeWhile_cons_of_neg (by simpa using hS)]
        decide

theorem noHyphNL_collapseNL : ∀ (l : List Char) (flag : Bool),
    noHyphNL l = true → noHyphNL (collapseAux isNewlineChar '\n' flag l) = true
  | [], flag, _ => by rw [collapseAux_nil]; rfl
  | c :: rest, flag, h => by
    obtain ⟨hc, ht⟩ := noHyphNL_cons_elim h
    by_cases hn : isNewlineChar c = true
    · cases flag with
      | true =>
        rw [(collapseAux_cons_pos rest hn).1]
        exact noHyphNL_collapseNL rest true ht
      | false =>
        rw [(collapseAux_cons_pos rest hn).2]
        refine noHyphNL_cons_intro _ _ (fun hcc => absurd hcc (by decide))
          (noHyphNL_collapseNL rest true ht)
    · have hn' : isNewlineChar c = false := by simpa using hn
      rw [collapseAux_cons_neg rest hn' flag]
      refine noHyphNL_cons_intro _ _ (fun hcc => ?_) (noHyphNL_collapseNL rest false ht)
      exact collapseNL_takeWhile_no_nl rest false (hc hcc)

theorem noHyphNL_collapseST : ∀ (l : List Char) (flag : Bool),
    noHyphNL l = true → noHyphNL (collapseAux isSpaceTab ' ' flag l) = true
  | [], flag, _ => by rw [collapseAux_nil]; rfl
  | c :: rest, flag, h => by
    obtain ⟨hc, ht⟩ := noHyphNL_cons_elim h
    by_cases hT : isSpaceTab c = true
    · cases flag with
      | true =>
        rw [(collapseAux_cons_pos rest hT).1]
        exact noHyphNL_collapseST rest true ht
      | false =>
        rw [(collapseAux_cons_pos rest hT).2]
        refine noHyphNL_cons_intro _ _ (fun hcc => absurd hcc (by decide))
          (noHyphNL_collapseST rest true ht)
    · have hT' : isSpaceTab c = false := by simpa using hT
      rw [collapseAux_cons_neg rest hT' flag]
      refine noHyphNL_cons_intro _ _ (fun hcc => ?_) (noHyphNL_collapseST rest false ht)
      exact collapseST_takeWhile_no_nl rest false (hc hcc)

theorem okRunsNL_collapseST : ∀ (l : List Char) (flag : Bool),
    okRuns isNewlineChar '\n' l = true →
    okRuns isNewlineChar '\n' (collapseAux isSpaceTab ' ' flag l) = true
  | [], flag, _ => by rw [collapseAux_nil]; rfl
  | c :: rest, flag, h => by
    by_cases hT : isSpaceTab c = true
    · cases flag with
      | true =>
        rw [(collapseAux_cons_pos rest hT).1]
        exact okRunsNL_collapseST rest true (okRuns_tail h)
      | false =>
        rw [(collapseAux_cons_pos rest hT).2]
        exact okRuns_cons (Or.inl (by decide))
          (okRunsNL_collapseST rest true (okRuns_tail h))
    · have hT' : isSpaceTab c = false := by simpa using hT
      rw [collapseAux_cons_neg rest hT' flag]
      refine okRuns_cons ?_ (okRunsNL_collapseST rest false (okRuns_tail h))
      by_cases hn : isNewlineChar c = true
      · refine Or.inr ⟨by simpa [isNewlineChar] using hn, ?_⟩
        intro d hd
        rcases collapseAux_false_head rest d hd with rfl | hrest
        · decide
        · cases rest with
          | nil => simp at hrest
          | cons e rest2 =>
            simp only [List.head?_cons, Option.some.injEq] at hrest
            subst hrest
            simp only [okRuns, Bool.and_eq_true] at h
            rcases Bool.or_eq_true_iff.mp h.1 with h1 | h1
            · rw [hn] at h1
              simp at h1
            · simp only [Bool.and_eq_true] at h1
              simpa using h1.2
      · exact Or.inl (by simpa using hn)

/-! ### The strip pass: prefix/suffix preservation and fixpoint -/

theorem contains_takeWhile_take : ∀ (l : List Char) (k : Nat),
    (((l.take k).takeWhile isPySpace).contains '\n') = true →
    ((l.takeWhile isPySpace).contains '\n') = true
  | [], k, h => by simp at h
  | c :: rest, 0, h => by simp at h
  | c :: rest, k + 1, h => by
    rw [List.take_succ_cons] at h
    by_cases hS : isPySpace c = true
    · rw [List.takeWhile_cons_of_pos hS] at h ⊢
      simp only [List.contains_cons, Bool.or_eq_true_iff] at h ⊢
      rcases h with h | h
      · exact Or.inl h
      · exact Or.inr (contains_takeWhile_take rest k h)
    · rw [List.takeWhile_cons_of_neg (by simpa using hS)] at h
      simp at h

theorem noHyphNL_take : ∀ (l : List Char) (k : Nat),
    noHyphNL l = true → noHyphNL (l.take k) = true
  | [], k, h => by simpa using h
  | _ :: _, 0, _ => rfl
  | c :: rest, k + 1, h => by
    obtain ⟨hc, ht⟩ := noHyphNL_cons_elim h
    rw [List.take_succ_cons]
    refine noHyphNL_cons_intro _ _ (fun hcc => ?_) (noHyphNL_take rest k ht)
    cases hcont : ((rest.take k).takeWhile isPySpace).contains '\n' with
    | false => rfl
    | true =>
      have hcontra := contains_takeWhile_take rest k hcont
      rw [hc hcc] at hcontra
      exact Bool.noConfusion hcontra

theorem noHyphNL_drop : ∀ (l : List Char) (k : Nat),
    noHyphNL l = true → noHyphNL (l.drop k) = true
  | [], k, h => by simpa using h
  | _ :: _, 0, h => h
  | _ :: rest, k + 1, h => by
    rw [List.drop_succ_cons]
    exact noHyphNL_drop rest k (noHyphNL_cons_elim h).2

theorem okRuns_take {p : Char → Bool} {rep : Char} : ∀ (l : List Char) (k : Nat),
    okRuns p rep l = true → okRuns p rep (l.take k) = true
  | [], k, h => by simpa using h
  | _ :: _, 0, _ => rfl
  | c :: rest, k + 1, h => by
    rw [List.take_succ_cons]
    cases rest with
    | nil => simpa using h
    | cons d rest2 =>
      simp only [okRuns, Bool.and_eq_true] at h
      cases k with
      | zero =>
        rw [List.take_zero]
        simp only [okRuns]
        rcases Bool.or_eq_true_iff.mp h.1 with h1 | h1
        · simp [h1]
        · simp only [Bool.and_eq_true] at h1
          simp [h1.1]
      | succ k2 =>
        rw [List.take_succ_cons]
        refine okRuns_cons ?_ ?_
        · rcases Bool.or_eq_true_iff.mp h.1 with h1 | h1
          · exact Or.inl (by simpa using h1)
          · simp only [Bool.and_eq_true] at h1
            refine Or.inr ⟨by simpa using h1.1, ?_⟩
            intro e he
            simp only [List.head?_cons, Option.some.injEq] at he
            subst he
            simpa using h1.2
        · rw [← List.take_succ_cons]
          exact okRuns_take (d :: rest2) (k2 + 1) h.2

theorem okRuns_drop {p : Char → Bool} {rep : Char} : ∀ (l : List Char) (k : Nat),
    okRuns p rep l = true → okRuns p rep (l.drop k) = true
  | [], k, h => by simpa using h
  | _ :: _, 0, h => h
  | _ :: rest, k + 1, h => by
    rw [List.drop_succ_cons]
    exact okRuns_drop rest k (okRuns_tail h)

theorem pyStrip_eq_take_drop (l : List Char) :
    ∃ k m, pyStrip l = (l.drop k).take m := by
  obtain ⟨s, hs⟩ := List.dropWhile_suffix (l := l) isPySpace
  obtain ⟨s2, hs2⟩ :=
    List.dropWhile_suffix (l := (l.dropWhile isPySpace).reverse) isPySpace
  have hd : l.drop s.length = l.dropWhile isPySpace := by
    conv_lhs => rw [← hs]
    rw [List.drop_left]
  have ha : l.dropWhile isPySpace
      = ((l.dropWhile isPySpace).reverse.dropWhile isPySpace).reverse
        ++ s2.reverse := by
    conv_lhs => rw [← List.reverse_reverse (l.dropWhile isPySpace), ← hs2]
    rw [List.reverse_append]
  refine ⟨s.length,
    ((l.dropWhile isPySpace).reverse.dropWhile isPySpace).length, ?_⟩
  rw [hd]
  unfold pyStrip
  set b := (l.dropWhile isPySpace).reverse.dropWhile isPySpace with hbdef
  conv_rhs => rw [ha]
  rw [← List.length_reverse b, List.take_left]

theorem noHyphNL_pyStrip (l : List Char) (h : noHyphNL l = true) :
    noHyphNL (pyStrip l) = true := by
  obtain ⟨k, m, he⟩ := pyStrip_eq_take_drop l
  rw [he]
  exact noHyphNL_take _ m (noHyphNL_drop _ k h)

theorem okRuns_pyStrip {p : Char → Bool} {rep : Char} (l : List Char)
    (h : okRuns p rep l = true) : okRuns p rep (pyStrip l) = true := by
  obtain ⟨k, m, he⟩ := pyStrip_eq_take_drop l
  rw [he]
  exact okRuns_take _ m (okRuns_drop _ k h)

theorem dropWhile_eq_self_of_head {p : Char → Bool} (l : List Char)
    (h : ∀ c, l.head? = some c → p c = false) : l.dropWhile p = l := by
  cases l with
  | nil => rfl
  | cons c t =>
    rw [List.dropWhile_cons_of_neg (by simp [h c rfl])]

theorem pyStrip_of_noEdgeWS (l : List Char) (h : noEdgeWS l = true) : pyStrip l = l := by
  simp only [noEdgeWS, Bool.and_eq_true] at h
  unfold pyStrip
  have hd : l.dropWhile isPySpace = l := by
    refine dropWhile_eq_self_of_head l (fun c hc => ?_)
    have h1 := h.1
    rw [hc] at h1
    simpa using h1
  rw [hd]
  have hd2 : l.reverse.dropWhile isPySpace = l.reverse := by
    refine dropWhile_eq_self_of_head l.reverse (fun c hc => ?_)
    rw [List.head?_reverse] at hc
    have h2 := h.2
    rw [hc] at h2
    simpa using h2
  rw [hd2, List.reverse_reverse]

theorem noEdgeWS_pyStrip (l : List Char) : noEdgeWS (pyStrip l) = true := by
  unfold noEdgeWS pyStrip
  rw [Bool.and_eq_true]
  constructor
  · rw [List.head?_reverse]
    cases hb : (l.dropWhile isPySpace).reverse.dropWhile isPySpace with
    | nil => rfl
    | cons x xs =>
      obtain ⟨s, hs⟩ :=
        List.dropWhile_suffix (l := (l.dropWhile isPySpace).reverse) isPySpace
      rw [hb] at hs
      have h1 : (x :: xs).getLast? = ((l.dropWhile isPySpace).reverse).getLast? := by
        rw [← hs, List.getLast?_append]
        cases hxl : (x :: xs).getLast? with
        | none => simp at hxl
        | some y => simp
      rw [h1, List.getLast?_reverse]
      cases hh : (l.dropWhile isPySpace).head? with
      | none => rfl
      | some c =>
        simp only [Option.all_some]
        rw [dropWhile_head_false l c hh]
        rfl
  · rw [List.getLast?_reverse]
    cases hh : ((l.dropWhile isPySpace).reverse.dropWhile isPySpace).head? with
    | none => rfl
    | some c =>
      simp only [Option.all_some]
      rw [dropWhile_head_false _ c hh]
      rfl

/-! ### Idempotence of the normalizer and its whitespace guarantees -/

theorem clean_text_chars_invariants (l : List Char) :
    noHyphNL (clean_text_chars l) = true ∧
    okRuns isNewlineChar '\n' (clean_text_chars l) = true ∧
    okRuns isSpaceTab ' ' (clean_text_chars l) = true ∧
    noEdgeWS (clean_text_chars l) = true := by
  unfold clean_text_chars collapseRuns
  refine ⟨?_, ?_, ?_, noEdgeWS_pyStrip _⟩
  · exact noHyphNL_pyStrip _ (noHyphNL_collapseST _ false
      (noHyphNL_collapseNL _ false (noHyphNL_dehyph l)))
  · exact okRuns_pyStrip _ (okRunsNL_collapseST _ false
      (okRuns_collapseAux isNewlineChar '\n' (dehyph l) false))
  · exact okRuns_pyStrip _ (okRuns_collapseAux isSpaceTab ' ' _ false)

theorem clean_text_chars_fixpoint (l : List Char) (h1 : noHyphNL l = true)
    (h2 : okRuns isNewlineChar '\n' l = true) (h3 : okRuns isSpaceTab ' ' l = true)
    (h4 : noEdgeWS l = true) : clean_text_chars l = l := by
  unfold clean_text_chars collapseRuns
  rw [dehyph_of_noHyphNL l h1, collapseAux_of_okRuns l h2,
    collapseAux_of_okRuns l h3, pyStrip_of_noEdgeWS l h4]

/-- Claim C4: text normalization is idempotent — applying clean_text twice
yields the same string as applying it once. -/
theorem clean_text_idempotent (s : String) :
    clean_text (clean_text s) = clean_text s := by
  unfold clean_text
  rw [show (String.mk (clean_text_chars s.data)).data = clean_text_chars s.data from rfl]
  obtain ⟨i1, i2, i3, i4⟩ := clean_text_chars_invariants s.data
  rw [clean_text_chars_fixpoint _ i1 i2 i3 i4]

/-- Claim C8: for every input string the normalized output has no two
adjacent space/tab characters (hence no run of two or more) and no two
adjacent newline characters. -/
theorem clean_text_no_whitespace_runs (s : String) :
    noTwoAdjacent isSpaceTab (clean_text s).data = true ∧
    noTwoAdjacent isNewlineChar (clean_text s).data = true := by
  have h := clean_text_chars_invariants s.data
  unfold clean_text
  rw [show (String.mk (clean_text_chars s.data)).data = clean_text_chars s.data from rfl]
  exact ⟨noTwoAdjacent_of_okRuns _ h.2.2.1, noTwoAdjacent_of_okRuns _ h.2.1⟩
